import Mathlib

/-!
Verification of the financial-document-dashboard parsing pipeline.

This file gives a shallow embedding of the pure core of
`app/financial_parsing` (chunker, merge engine, parse-job outcome,
label normalization, period alignment, review/edit/lock workflow,
deletion) and proves the specified properties about it.

Python dicts are modelled as insertion-ordered association lists with
in-place update, matching CPython dict semantics.  Machine floats only
occur as opaque payload values that are stored, compared and printed,
never computed with, so they are modelled by `Option Int`.
-/

namespace FinDash

/-- Insertion-ordered association-list update: replace the value at an
existing key in place, else append at the end (CPython `d[k] = v`). -/
def updateAssoc {κ β : Type} [DecidableEq κ] : List (κ × β) → κ → β → List (κ × β)
  | [], k, v => [(k, v)]
  | (k0, v0) :: rest, k, v =>
    if k0 = k then (k0, v) :: rest else (k0, v0) :: updateAssoc rest k v

/-- Association-list lookup (CPython `d.get(k)`). -/
def lookupAssoc {κ β : Type} [DecidableEq κ] : List (κ × β) → κ → Option β
  | [], _ => none
  | (k0, v0) :: rest, k => if k0 = k then some v0 else lookupAssoc rest k

/-- Fold that keeps the current best element, replacing it only when the
measure is strictly greater (so the first of a tie is kept). -/
def bestFrom {α : Type} (m : α → Nat) : α → List α → α
  | b, [] => b
  | b, x :: t => bestFrom m (if m x > m b then x else b) t

/-- First-seen deduplication: keep the first occurrence of each element,
in order of first appearance (`seen` holds elements already emitted). -/
def firstSeenDedupAux {α : Type} [DecidableEq α] (seen : List α) : List α → List α
  | [] => []
  | x :: t =>
    if x ∈ seen then firstSeenDedupAux seen t
    else x :: firstSeenDedupAux (seen ++ [x]) t

/-- The distinct elements of a list in order of first appearance. -/
def firstSeenDedup {α : Type} [DecidableEq α] (l : List α) : List α :=
  firstSeenDedupAux [] l

theorem lookupAssoc_updateAssoc {κ β : Type} [DecidableEq κ]
    (l : List (κ × β)) (k k' : κ) (v : β) :
    lookupAssoc (updateAssoc l k v) k' =
      if k = k' then some v else lookupAssoc l k' := by
  induction l with
  | nil => simp [updateAssoc, lookupAssoc]
  | cons hd tl ih =>
    obtain ⟨k0, v0⟩ := hd
    simp only [updateAssoc]
    by_cases h0 : k0 = k
    · subst h0
      by_cases h : k0 = k' <;> simp [lookupAssoc, h]
    · simp only [if_neg h0, lookupAssoc]
      by_cases h1 : k0 = k'
      · subst h1
        have : ¬ k = k0 := fun h => h0 h.symm
        simp [this]
      · simp [h1, ih]

theorem bestFrom_ge {α : Type} (m : α → Nat) (b : α) (l : List α) :
    m b ≤ m (bestFrom m b l) := by
  induction l generalizing b with
  | nil => simp [bestFrom]
  | cons x t ih =>
    simp only [bestFrom]
    by_cases h : m x > m b
    · simp only [if_pos h]
      exact le_trans (le_of_lt h) (ih x)
    · simp only [if_neg h]
      exact ih b

theorem bestFrom_mem {α : Type} (m : α → Nat) (b : α) (l : List α) :
    bestFrom m b l ∈ b :: l := by
  induction l generalizing b with
  | nil => simp [bestFrom]
  | cons x t ih =>
    simp only [bestFrom]
    by_cases h : m x > m b
    · simp only [if_pos h]
      have := ih x
      simp only [List.mem_cons] at this ⊢
      tauto
    · simp only [if_neg h]
      have := ih b
      simp only [List.mem_cons] at this ⊢
      tauto

theorem bestFrom_max {α : Type} (m : α → Nat) (b : α) (l : List α) :
    ∀ x ∈ b :: l, m x ≤ m (bestFrom m b l) := by
  induction l generalizing b with
  | nil =>
    intro x hx
    rcases List.mem_cons.mp hx with h1 | h1
    · rw [h1]; simp [bestFrom]
    · simp at h1
  | cons y t ih =>
    intro x hx
    simp only [bestFrom]
    by_cases hc : m y > m b
    · simp only [if_pos hc]
      rcases List.mem_cons.mp hx with h1 | h1
      · rw [h1]; exact le_trans (le_of_lt hc) (bestFrom_ge m y t)
      · exact ih y x h1
    · simp only [if_neg hc]
      rcases List.mem_cons.mp hx with h1 | h1
      · rw [h1]; exact ih b b (by simp)
      · rcases List.mem_cons.mp h1 with h2 | h2
        · rw [h2]; exact le_trans (le_of_not_lt hc) (bestFrom_ge m b t)
        · exact ih b x (List.mem_cons_of_mem _ h2)

theorem bestFrom_of_no_gt {α : Type} (m : α → Nat) (b : α) (l : List α)
    (h : ∀ x ∈ l, m x ≤ m b) : bestFrom m b l = b := by
  induction l with
  | nil => simp [bestFrom]
  | cons x t ih =>
    simp only [bestFrom]
    have hx : m x ≤ m b := h x (by simp)
    simp only [if_neg (not_lt_of_le hx)]
    exact ih (fun y hy => h y (by simp [hy]))

/-- The kept element is the first element of `b :: l` attaining the
maximal measure: everything strictly before it is strictly smaller. -/
theorem bestFrom_first {α : Type} (m : α → Nat) (b : α) (l : List α) :
    ∃ l1 l2, b :: l = l1 ++ bestFrom m b l :: l2 ∧
      ∀ x ∈ l1, m x < m (bestFrom m b l) := by
  induction l generalizing b with
  | nil => exact ⟨[], [], by simp [bestFrom], by simp⟩
  | cons y t ih =>
    simp only [bestFrom]
    by_cases h : m y > m b
    · simp only [if_pos h]
      set B := bestFrom m y t with hB
      obtain ⟨l1, l2, heq, hlt⟩ := ih y
      refine ⟨b :: l1, l2, by rw [List.cons_append, heq], ?_⟩
      intro x hx
      rcases List.mem_cons.mp hx with h1 | h1
      · rw [h1]; exact lt_of_lt_of_le h (bestFrom_ge m y t)
      · exact hlt x h1
    · simp only [if_neg h]
      set B := bestFrom m b t with hB
      obtain ⟨l1, l2, heq, hlt⟩ := ih b
      cases l1 with
      | nil =>
        simp only [List.nil_append, List.cons.injEq] at heq
        obtain ⟨hb, ht⟩ := heq
        rw [← hB] at hb
        exact ⟨[], y :: t, by rw [List.nil_append, ← hb], by simp⟩
      | cons a l1' =>
        simp only [List.cons_append, List.cons.injEq] at heq
        obtain ⟨hb, ht⟩ := heq
        rw [← hB] at ht
        subst hb
        refine ⟨b :: y :: l1', l2, by rw [List.cons_append, List.cons_append, ht], ?_⟩
        intro x hx
        rcases List.mem_cons.mp hx with h1 | h1
        · rw [h1]; exact hlt b (by simp)
        · rcases List.mem_cons.mp h1 with h2 | h2
          · rw [h2]; exact lt_of_le_of_lt (le_of_not_lt h) (hlt b (by simp))
          · exact hlt x (by simp [h2])

/-! ## Merge engine (`_merge_statements` in `financial_parsing/service.py`) -/

/-- One extracted line item as returned by the extraction service.
Numeric values are opaque payloads here (stored and compared only). -/
structure LineItemData where
  category : String
  label : String
  value : Option Int
  is_total : Bool
  indent_level : Nat
deriving DecidableEq, Repr

/-- One extracted financial statement as returned by the extraction service. -/
structure StmtData where
  statement_type : String
  period : String
  line_items : List LineItemData
deriving DecidableEq, Repr

/-- Deduplication key `(stmt["statement_type"], stmt["period"])`. -/
def keyOf (s : StmtData) : String × String := (s.statement_type, s.period)

/-- Number of line items of a statement. -/
def liCount (s : StmtData) : Nat := s.line_items.length

/-- Body of the `_merge_statements` loop for one statement. -/
def mergeStep (best : List ((String × String) × StmtData)) (stmt : StmtData) :
    List ((String × String) × StmtData) :=
  match lookupAssoc best (keyOf stmt) with
  | none => updateAssoc best (keyOf stmt) stmt
  | some existing =>
    if liCount stmt > liCount existing then updateAssoc best (keyOf stmt) stmt else best

/-- `_merge_statements`: deduplicate statements by (type, period), keeping
the version with more line items; the `best` dict is insertion ordered. -/
def mergeStatements (all_results : List (List StmtData)) : List StmtData :=
  ((all_results.flatten).foldl mergeStep []).map (fun e => e.2)

/-- All statements with a given key, in chunk-traversal order. -/
def candidates (all_results : List (List StmtData)) (key : String × String) :
    List StmtData :=
  (all_results.flatten).filter (fun s => keyOf s = key)

/-- The winning statement among a candidate list (none when empty). -/
def bestOpt : List StmtData → Option StmtData
  | [] => none
  | h :: t => some (bestFrom liCount h t)

theorem mergeFold_lookup (l : List StmtData)
    (acc : List ((String × String) × StmtData)) (key : String × String) :
    lookupAssoc (l.foldl mergeStep acc) key =
      match lookupAssoc acc key with
      | none => bestOpt (l.filter (fun s => keyOf s = key))
      | some b => some (bestFrom liCount b (l.filter (fun s => keyOf s = key))) := by
  induction l generalizing acc with
  | nil =>
    cases h : lookupAssoc acc key <;> simp [List.foldl_nil, List.filter_nil, bestOpt, bestFrom, h]
  | cons s t ih =>
    simp only [List.foldl_cons]
    rw [ih]
    by_cases hks : keyOf s = key
    · subst hks
      have hf : List.filter (fun x => decide (keyOf x = keyOf s)) (s :: t)
          = s :: List.filter (fun x => decide (keyOf x = keyOf s)) t := by
        simp [List.filter_cons]
      rw [hf]
      cases hacc : lookupAssoc acc (keyOf s) with
      | none =>
        have h1 : lookupAssoc (mergeStep acc s) (keyOf s) = some s := by
          simp [mergeStep, hacc, lookupAssoc_updateAssoc]
        rw [h1]
        simp [bestOpt]
      | some b =>
        by_cases hgt : liCount s > liCount b
        · have h1 : lookupAssoc (mergeStep acc s) (keyOf s) = some s := by
            simp [mergeStep, hacc, if_pos hgt, lookupAssoc_updateAssoc]
          rw [h1]
          simp [bestFrom, if_pos hgt]
        · have h1 : lookupAssoc (mergeStep acc s) (keyOf s) = some b := by
            simp [mergeStep, hacc, if_neg hgt]
          rw [h1]
          simp [bestFrom, if_neg hgt]
    · have h1 : lookupAssoc (mergeStep acc s) key = lookupAssoc acc key := by
        unfold mergeStep
        cases hacc : lookupAssoc acc (keyOf s) with
        | none => simp [lookupAssoc_updateAssoc, hks]
        | some b =>
          by_cases hgt : liCount s > liCount b
          · simp [if_pos hgt, lookupAssoc_updateAssoc, hks]
          · simp [if_neg hgt]
      rw [h1]
      have h2 : List.filter (fun x => decide (keyOf x = key)) (s :: t) =
          List.filter (fun x => decide (keyOf x = key)) t := by
        simp [List.filter_cons, hks]
      simp only [h2]

/-- Well-formedness of the merge dictionary: every entry is keyed by its
statement's key, and keys are distinct. -/
def goodAssoc (l : List ((String × String) × StmtData)) : Prop :=
  (∀ e ∈ l, e.1 = keyOf e.2) ∧ (l.map (fun e => e.1)).Nodup

theorem updateAssoc_keys {κ β : Type} [DecidableEq κ]
    (l : List (κ × β)) (k : κ) (v : β) :
    (updateAssoc l k v).map (fun e => e.1) =
      if k ∈ l.map (fun e => e.1) then l.map (fun e => e.1)
      else l.map (fun e => e.1) ++ [k] := by
  induction l with
  | nil => simp [updateAssoc]
  | cons hd tl ih =>
    obtain ⟨k0, v0⟩ := hd
    simp only [updateAssoc, List.map_cons, List.mem_cons]
    by_cases h0 : k0 = k
    · subst h0
      simp
    · have hne : ¬ k = k0 := fun h => h0 h.symm
      simp only [if_neg h0, List.map_cons, ih]
      by_cases hmem : k ∈ tl.map (fun e => e.1) <;> simp [hmem, hne]

theorem updateAssoc_good (l : List ((String × String) × StmtData))
    (k : String × String) (v : StmtData) (hl : goodAssoc l) (hk : k = keyOf v) :
    goodAssoc (updateAssoc l k v) := by
  obtain ⟨h1, h2⟩ := hl
  constructor
  · intro e he
    induction l with
    | nil =>
      simp only [updateAssoc, List.mem_singleton] at he
      subst he; exact hk
    | cons hd tl ih =>
      obtain ⟨k0, v0⟩ := hd
      simp only [updateAssoc] at he
      by_cases h0 : k0 = k
      · rw [if_pos h0] at he
        rcases List.mem_cons.mp he with h | h
        · subst h; simpa [h0] using hk
        · exact h1 e (List.mem_cons_of_mem _ h)
      · rw [if_neg h0] at he
        rcases List.mem_cons.mp he with h | h
        · subst h; exact h1 (k0, v0) (by simp)
        · exact ih (fun e he => h1 e (List.mem_cons_of_mem _ he))
            (List.Nodup.of_cons h2) h
  · rw [updateAssoc_keys]
    by_cases hmem : k ∈ l.map (fun e => e.1)
    · simpa [hmem] using h2
    · simp only [if_neg hmem]
      exact List.Nodup.append h2 (List.nodup_singleton k)
        (by simpa [List.disjoint_singleton] using hmem)

theorem mergeStep_good (acc : List ((String × String) × StmtData)) (s : StmtData)
    (h : goodAssoc acc) : goodAssoc (mergeStep acc s) := by
  unfold mergeStep
  cases hacc : lookupAssoc acc (keyOf s) with
  | none => exact updateAssoc_good acc _ s h rfl
  | some b =>
    by_cases hgt : liCount s > liCount b
    · simpa only [if_pos hgt] using updateAssoc_good acc _ s h rfl
    · simpa only [if_neg hgt] using h

theorem mergeFold_good (l : List StmtData)
    (acc : List ((String × String) × StmtData)) (h : goodAssoc acc) :
    goodAssoc (l.foldl mergeStep acc) := by
  induction l generalizing acc with
  | nil => exact h
  | cons s t ih => exact ih (mergeStep acc s) (mergeStep_good acc s h)

theorem mem_of_lookupAssoc {κ β : Type} [DecidableEq κ]
    (l : List (κ × β)) (k : κ) (v : β) (h : lookupAssoc l k = some v) :
    (k, v) ∈ l := by
  induction l with
  | nil => simp [lookupAssoc] at h
  | cons hd tl ih =>
    obtain ⟨k0, v0⟩ := hd
    simp only [lookupAssoc] at h
    by_cases h0 : k0 = k
    · rw [if_pos h0] at h
      subst h0
      simp only [Option.some.injEq] at h
      subst h
      simp
    · rw [if_neg h0] at h
      exact List.mem_cons_of_mem _ (ih h)

theorem lookupAssoc_key_mem {κ β : Type} [DecidableEq κ]
    (l : List (κ × β)) (k : κ) (v : β) (h : lookupAssoc l k = some v) :
    k ∈ l.map (fun e => e.1) := by
  have := mem_of_lookupAssoc l k v h
  exact List.mem_map_of_mem _ this

theorem lookupAssoc_of_mem_good :
    ∀ (l : List ((String × String) × StmtData)), goodAssoc l →
      ∀ b : StmtData, b ∈ l.map (fun e => e.2) →
        lookupAssoc l (keyOf b) = some b := by
  intro l
  induction l with
  | nil => intro _ b hb; simp at hb
  | cons hd tl ih =>
    intro hgood b hb
    obtain ⟨k0, v0⟩ := hd
    have hk0 : k0 = keyOf v0 := hgood.1 (k0, v0) (by simp)
    have hgood2 : goodAssoc tl := by
      refine ⟨fun e he => hgood.1 e (List.mem_cons_of_mem _ he), ?_⟩
      have h2 := hgood.2
      simp only [List.map_cons, List.nodup_cons] at h2
      exact h2.2
    simp only [List.map_cons, List.mem_cons] at hb
    rcases hb with hb | hb
    · subst hb
      simp [lookupAssoc, hk0]
    · have htl : lookupAssoc tl (keyOf b) = some b := ih hgood2 b hb
      have hne : k0 ≠ keyOf b := by
        intro hkk
        have hkmem : keyOf b ∈ tl.map (fun e => e.1) :=
          lookupAssoc_key_mem tl (keyOf b) b htl
        rw [← hkk] at hkmem
        have h2 := hgood.2
        simp only [List.map_cons, List.nodup_cons] at h2
        exact h2.1 hkmem
      simp [lookupAssoc, hne, htl]

theorem lookup_mem_good (l : List ((String × String) × StmtData))
    (hgood : goodAssoc l) (key : String × String) (b : StmtData)
    (h : lookupAssoc l key = some b) :
    b ∈ l.map (fun e => e.2) ∧ keyOf b = key := by
  have hm := mem_of_lookupAssoc l key b h
  refine ⟨List.mem_map_of_mem _ hm, ?_⟩
  exact (hgood.1 (key, b) hm).symm

theorem merge_good (all_results : List (List StmtData)) :
    goodAssoc ((all_results.flatten).foldl mergeStep []) :=
  mergeFold_good _ [] ⟨by simp, by simp⟩

theorem merge_lookup (all_results : List (List StmtData)) (key : String × String) :
    lookupAssoc ((all_results.flatten).foldl mergeStep []) key
      = bestOpt (candidates all_results key) := by
  rw [mergeFold_lookup]
  rfl

/-- A three-candidate example statement with `n` line items. -/
def stmtWithItems (n : Nat) : StmtData :=
  ⟨"income_statement", "Q1 2023",
    (List.range n).map (fun i => ⟨"other", "item", some (Int.ofNat i), false, 0⟩)⟩

/-- C3: the merge step deduplicates by the exact key (statement_type, period);
among all statements sharing a key the one with strictly more line items is
kept, with the first-seen candidate winning ties; the kept statement is one
of the input statements verbatim (no splicing of line items); candidates
with line-item counts [2, 5, 3] merge to the 5-item version. -/
theorem merge_dedup_strictly_more_first_tie
    (all_results : List (List StmtData)) (key : String × String) :
    (∀ b ∈ mergeStatements all_results, b ∈ all_results.flatten) ∧
    (∀ b1 ∈ mergeStatements all_results, ∀ b2 ∈ mergeStatements all_results,
        keyOf b1 = keyOf b2 → b1 = b2) ∧
    (∀ c0 cs, candidates all_results key = c0 :: cs →
      ∃ b ∈ mergeStatements all_results, keyOf b = key ∧
        b ∈ candidates all_results key ∧
        (∀ x ∈ candidates all_results key, liCount x ≤ liCount b) ∧
        (∃ l1 l2, candidates all_results key = l1 ++ b :: l2 ∧
          ∀ x ∈ l1, liCount x < liCount b)) ∧
    mergeStatements [[stmtWithItems 2], [stmtWithItems 5], [stmtWithItems 3]]
      = [stmtWithItems 5] := by
  have hgood := merge_good all_results
  refine ⟨?_, ?_, ?_, by decide⟩
  · intro b hb
    have hlk : lookupAssoc ((all_results.flatten).foldl mergeStep []) (keyOf b)
        = some b := lookupAssoc_of_mem_good _ hgood b hb
    rw [merge_lookup] at hlk
    cases hc : candidates all_results (keyOf b) with
    | nil => rw [hc] at hlk; simp [bestOpt] at hlk
    | cons c0 cs =>
      rw [hc] at hlk
      simp only [bestOpt, Option.some.injEq] at hlk
      have : b ∈ c0 :: cs := hlk ▸ bestFrom_mem liCount c0 cs
      rw [← hc] at this
      exact List.mem_of_mem_filter this
  · intro b1 hb1 b2 hb2 hk
    have h1 : lookupAssoc ((all_results.flatten).foldl mergeStep []) (keyOf b1)
        = some b1 := lookupAssoc_of_mem_good _ hgood b1 hb1
    have h2 : lookupAssoc ((all_results.flatten).foldl mergeStep []) (keyOf b2)
        = some b2 := lookupAssoc_of_mem_good _ hgood b2 hb2
    rw [← hk] at h2
    rw [h1] at h2
    exact (Option.some.injEq _ _ ▸ h2)
  · intro c0 cs hc
    have hlk := merge_lookup all_results key
    rw [hc] at hlk
    simp only [bestOpt] at hlk
    have hmem := lookup_mem_good _ hgood key _ hlk
    refine ⟨bestFrom liCount c0 cs, hmem.1, hmem.2, ?_, ?_, ?_⟩
    · rw [hc]; exact bestFrom_mem liCount c0 cs
    · intro x hx; rw [hc] at hx; exact bestFrom_max liCount c0 cs x hx
    · rw [hc]; exact bestFrom_first liCount c0 cs

/-- C3 witness: the [2, 5, 3] merge instance, via the main theorem. -/
theorem merge_dedup_strictly_more_first_tie_witness :
    ∃ b ∈ mergeStatements [[stmtWithItems 2], [stmtWithItems 5], [stmtWithItems 3]],
      keyOf b = ("income_statement", "Q1 2023") ∧
      b ∈ candidates [[stmtWithItems 2], [stmtWithItems 5], [stmtWithItems 3]]
            ("income_statement", "Q1 2023") ∧
      (∀ x ∈ candidates [[stmtWithItems 2], [stmtWithItems 5], [stmtWithItems 3]]
            ("income_statement", "Q1 2023"), liCount x ≤ liCount b) ∧
      (∃ l1 l2, candidates [[stmtWithItems 2], [stmtWithItems 5], [stmtWithItems 3]]
            ("income_statement", "Q1 2023") = l1 ++ b :: l2 ∧
          ∀ x ∈ l1, liCount x < liCount b) :=
  (merge_dedup_strictly_more_first_tie
      [[stmtWithItems 2], [stmtWithItems 5], [stmtWithItems 3]]
      ("income_statement", "Q1 2023")).2.2.1
    (stmtWithItems 2) [stmtWithItems 5, stmtWithItems 3] (by decide)

theorem foldl_max_perm {l l' : List Nat} (h : l.Perm l') :
    ∀ a : Nat, l.foldl max a = l'.foldl max a := by
  induction h with
  | nil => intro a; rfl
  | cons x _ ih => intro a; simp only [List.foldl_cons]; exact ih _
  | swap x y l =>
    intro a
    simp only [List.foldl_cons]
    have hm : max (max a y) x = max (max a x) y := by omega
    rw [hm]
  | trans _ _ ih1 ih2 => intro a; exact (ih1 a).trans (ih2 a)

theorem bestFrom_measure {α : Type} (m : α → Nat) (b : α) (l : List α) :
    m (bestFrom m b l) = (l.map m).foldl max (m b) := by
  induction l generalizing b with
  | nil => rfl
  | cons x t ih =>
    simp only [bestFrom, List.map_cons, List.foldl_cons]
    have hmb : m (if m x > m b then x else b) = max (m b) (m x) := by
      by_cases h : m x > m b
      · simp only [if_pos h]; omega
      · simp only [if_neg h]; omega
    rw [ih, hmb]

theorem bestOpt_measure (l : List StmtData) (b : StmtData) (h : bestOpt l = some b) :
    liCount b = (l.map liCount).foldl max 0 := by
  cases l with
  | nil => simp [bestOpt] at h
  | cons c0 cs =>
    simp only [bestOpt, Option.some.injEq] at h
    subst h
    rw [bestFrom_measure liCount c0 cs]
    simp only [List.map_cons, List.foldl_cons, Nat.zero_max]

theorem mem_merge_key_iff (results : List (List StmtData)) (key : String × String) :
    (∃ b ∈ mergeStatements results, keyOf b = key) ↔ candidates results key ≠ [] := by
  constructor
  · rintro ⟨b, hb, hk⟩
    have hlk := lookupAssoc_of_mem_good _ (merge_good results) b hb
    rw [hk, merge_lookup] at hlk
    intro hnil
    rw [hnil] at hlk
    simp [bestOpt] at hlk
  · intro hne
    cases hc : candidates results key with
    | nil => exact absurd hc hne
    | cons c0 cs =>
      have hlk := merge_lookup results key
      rw [hc] at hlk
      simp only [bestOpt] at hlk
      have hm := lookup_mem_good _ (merge_good results) key _ hlk
      exact ⟨_, hm.1, hm.2⟩

theorem merge_count (results : List (List StmtData)) (key : String × String)
    (b : StmtData) (hb : b ∈ mergeStatements results) (hk : keyOf b = key) :
    liCount b = ((candidates results key).map liCount).foldl max 0 := by
  have hlk := lookupAssoc_of_mem_good _ (merge_good results) b hb
  rw [hk, merge_lookup] at hlk
  exact bestOpt_measure _ _ hlk

/-- Two distinct statements sharing key and line-item count. -/
def stmtA : StmtData :=
  ⟨"income_statement", "Q1 2023", [⟨"revenue", "Revenue", some 100, false, 0⟩]⟩

def stmtB : StmtData :=
  ⟨"income_statement", "Q1 2023", [⟨"revenue", "Sales", some 200, false, 0⟩]⟩

/-- C4 counterexample: permuting the chunk results changes the merged set.
With two distinct statements of equal key and equal line-item count, the
first-seen one wins, so swapping the chunks swaps the survivor. -/
theorem merge_order_dependent_cex :
    (([[stmtA], [stmtB]] : List (List StmtData)).flatten).Perm
      (([[stmtB], [stmtA]] : List (List StmtData)).flatten) ∧
    stmtA ∈ mergeStatements [[stmtA], [stmtB]] ∧
    stmtA ∉ mergeStatements [[stmtB], [stmtA]] := by
  refine ⟨?_, by decide, by decide⟩
  show ([stmtA, stmtB] : List StmtData).Perm [stmtB, stmtA]
  exact List.Perm.swap stmtB stmtA []

/-- C4 amended: permuting the chunk result lists (and the statements within
them) preserves the set of deduplication keys of the merged output and, for
each key, the line-item count of the kept statement (the maximum among that
key's candidates); the kept statement itself may differ when distinct
candidates tie on line-item count. -/
theorem merge_perm_preserves_keys_and_counts
    (results results' : List (List StmtData))
    (hperm : results.flatten.Perm results'.flatten) (key : String × String) :
    ((∃ b ∈ mergeStatements results, keyOf b = key) ↔
      (∃ b ∈ mergeStatements results', keyOf b = key)) ∧
    (∀ b ∈ mergeStatements results, ∀ b' ∈ mergeStatements results',
      keyOf b = key → keyOf b' = key → liCount b = liCount b') := by
  have hcand : (candidates results key).Perm (candidates results' key) :=
    hperm.filter _
  constructor
  · rw [mem_merge_key_iff, mem_merge_key_iff]
    constructor
    · intro h hnil
      exact h (List.Perm.eq_nil (hnil ▸ hcand))
    · intro h hnil
      exact h (List.Perm.eq_nil (hnil ▸ hcand.symm))
  · intro b hb b' hb' hk hk'
    rw [merge_count results key b hb hk, merge_count results' key b' hb' hk']
    exact foldl_max_perm (hcand.map liCount) 0

/-- C4 amended witness: concrete permuted runs agree on key presence. -/
theorem merge_perm_preserves_keys_and_counts_witness :
    (∃ b ∈ mergeStatements [[stmtA], [stmtB]],
        keyOf b = ("income_statement", "Q1 2023")) ↔
    (∃ b ∈ mergeStatements [[stmtB], [stmtA]],
        keyOf b = ("income_statement", "Q1 2023")) :=
  (merge_perm_preserves_keys_and_counts [[stmtA], [stmtB]] [[stmtB], [stmtA]]
    (by show ([stmtA, stmtB] : List StmtData).Perm [stmtB, stmtA]
        exact List.Perm.swap stmtB stmtA [])
    ("income_statement", "Q1 2023")).1

/-! ## Parse-job outcome (`run_parsing` in `financial_parsing/service.py`) -/

/-- Result of one chunk's extraction call: a parsed statement list
(possibly empty), or the page-range-tagged error recorded on exception. -/
inductive ChunkOutcome where
  | ok : List StmtData → ChunkOutcome
  | err : String → ChunkOutcome
deriving DecidableEq, Repr

def okResult : ChunkOutcome → Option (List StmtData)
  | ChunkOutcome.ok r => some r
  | ChunkOutcome.err _ => none

def errResult : ChunkOutcome → Option String
  | ChunkOutcome.ok _ => none
  | ChunkOutcome.err e => some e

/-- The usable statements a chunk yielded (none on a failed call). -/
def stmtsYielded : ChunkOutcome → List StmtData
  | ChunkOutcome.ok r => r
  | ChunkOutcome.err _ => []

/-- The job fields written at the end of a `run_parsing` run. -/
structure JobOutcome where
  status : String
  error_message : Option String
  statements : List StmtData
deriving DecidableEq, Repr

/-- Final job state after the chunk loop of `run_parsing`, as a function of
the per-chunk outcomes: `all_results` collects the results of successful
calls (including empty lists), `errors` collects failure messages; the job
fails exactly when `all_results` is empty. -/
def runParsingOutcome (outcomes : List ChunkOutcome) : JobOutcome :=
  let all_results := outcomes.filterMap okResult
  let errors := outcomes.filterMap errResult
  if all_results.isEmpty then
    { status := "failed"
      error_message :=
        some (if errors.isEmpty then "No results extracted"
              else String.intercalate "; " errors)
      statements := [] }
  else
    { status := "completed"
      error_message :=
        if errors.isEmpty then none
        else some ("Partial errors: " ++ String.intercalate "; " errors)
      statements := mergeStatements all_results }

/-- C1 counterexample: a run whose single chunk call succeeds but yields
zero statements ends `completed`, not `failed` as the claim requires. -/
theorem run_parsing_zero_statements_cex :
    (∀ o ∈ [ChunkOutcome.ok ([] : List StmtData)], stmtsYielded o = []) ∧
    (runParsingOutcome [ChunkOutcome.ok []]).status = "completed" ∧
    (runParsingOutcome [ChunkOutcome.ok []]).status ≠ "failed" :=
  ⟨by decide, rfl, by decide⟩

/-- C1 amended: if every chunk call fails (no chunk returns a result list),
the job ends `failed` with the concatenated per-chunk error list (or the
generic message when no errors were recorded, which happens only with zero
chunks); if at least one chunk call returns a statement list — even an
empty one — the job ends `completed` with the merge of the returned lists,
and failed chunks' errors are recorded as partial errors. -/
theorem run_parsing_outcome_status (outcomes : List ChunkOutcome) :
    ((∀ o ∈ outcomes, okResult o = none) →
      (runParsingOutcome outcomes).status = "failed" ∧
      (runParsingOutcome outcomes).error_message =
        some (if (outcomes.filterMap errResult).isEmpty then "No results extracted"
              else String.intercalate "; " (outcomes.filterMap errResult))) ∧
    ((∃ o ∈ outcomes, okResult o ≠ none) →
      (runParsingOutcome outcomes).status = "completed" ∧
      (runParsingOutcome outcomes).error_message =
        (if (outcomes.filterMap errResult).isEmpty then none
         else some ("Partial errors: " ++
            String.intercalate "; " (outcomes.filterMap errResult))) ∧
      (runParsingOutcome outcomes).statements =
        mergeStatements (outcomes.filterMap okResult)) := by
  constructor
  · intro h
    have hnil : outcomes.filterMap okResult = [] := by
      rw [List.filterMap_eq_nil_iff]
      exact h
    unfold runParsingOutcome
    rw [hnil]
    simp
  · rintro ⟨o, ho, hok⟩
    have hne : outcomes.filterMap okResult ≠ [] := by
      intro hnil
      exact hok (List.filterMap_eq_nil_iff.mp hnil o ho)
    unfold runParsingOutcome
    cases hres : outcomes.filterMap okResult with
    | nil => exact absurd hres hne
    | cons r rs => simp [hres]

/-- C1 amended witness: an all-failed run fails; a partially failed run
with one successful chunk completes. -/
theorem run_parsing_outcome_status_witness :
    (runParsingOutcome [ChunkOutcome.err "Pages 1-25: boom"]).status = "failed" ∧
    (runParsingOutcome
        [ChunkOutcome.ok [stmtA], ChunkOutcome.err "Pages 21-45: boom"]).status
      = "completed" :=
  ⟨((run_parsing_outcome_status [ChunkOutcome.err "Pages 1-25: boom"]).1
      (by decide)).1,
   ((run_parsing_outcome_status
        [ChunkOutcome.ok [stmtA], ChunkOutcome.err "Pages 21-45: boom"]).2
      ⟨ChunkOutcome.ok [stmtA], by decide, by decide⟩).1⟩

/-! ## Chunker (`_extract_chunks` in `financial_parsing/service.py`) -/

/-- The page-window loop of `_extract_chunks`, with explicit fuel (one unit
per loop iteration); a window is a 1-based inclusive page range
`(start_page, end_page)`.  Mirrors: `end = min(start + chunk_size, total)`,
emit `(start + 1, end)`, break when `end >= total`, else
`start = end - overlap`. -/
def chunkWindows (totalPages chunkSize overlap : Nat) : Nat → Nat → List (Nat × Nat)
  | 0, _ => []
  | fuel + 1, start =>
    if start < totalPages then
      if totalPages ≤ min (start + chunkSize) totalPages then
        [(start + 1, min (start + chunkSize) totalPages)]
      else
        (start + 1, min (start + chunkSize) totalPages) ::
          chunkWindows totalPages chunkSize overlap fuel
            (min (start + chunkSize) totalPages - overlap)
    else []

/-- The page windows emitted by `_extract_chunks` for `totalPages` pages:
the loop advances `start` by at least one page per iteration, so
`totalPages` iterations of fuel always suffice. -/
def extractChunks (totalPages chunkSize overlap : Nat) : List (Nat × Nat) :=
  chunkWindows totalPages chunkSize overlap totalPages 0

theorem chunkWindows_of_ge (P C O fuel start : Nat) (hs : ¬ start < P) :
    chunkWindows P C O fuel start = [] := by
  cases fuel with
  | zero => rfl
  | succ f => simp [chunkWindows, hs]

theorem chunkWindows_ne_nil (P C O fuel start : Nat)
    (hs : start < P) (hf : 1 ≤ fuel) :
    chunkWindows P C O fuel start ≠ [] := by
  cases fuel with
  | zero => omega
  | succ f =>
    unfold chunkWindows
    rw [if_pos hs]
    by_cases he : P ≤ min (start + C) P <;> simp [he]

theorem chunkWindows_head (P C O fuel start : Nat)
    (hs : start < P) (hf : 1 ≤ fuel) :
    (chunkWindows P C O fuel start).head? = some (start + 1, min (start + C) P) := by
  cases fuel with
  | zero => omega
  | succ f =>
    unfold chunkWindows
    rw [if_pos hs]
    by_cases he : P ≤ min (start + C) P <;> simp [he]

theorem chunkWindows_cover (P C O : Nat) (hO : O < C) :
    ∀ fuel start, start < P → P - start ≤ fuel →
      ∀ p, (start + 1 ≤ p ∧ p ≤ P) ↔
        ∃ w ∈ chunkWindows P C O fuel start, w.1 ≤ p ∧ p ≤ w.2 := by
  intro fuel
  induction fuel with
  | zero => intro start hs hf; omega
  | succ f ih =>
    intro start hs hf p
    unfold chunkWindows
    rw [if_pos hs]
    by_cases he : P ≤ min (start + C) P
    · simp only [if_pos he, List.mem_cons, List.not_mem_nil, or_false]
      constructor
      · intro hp
        refine ⟨(start + 1, min (start + C) P), rfl, by simp; omega⟩
      · rintro ⟨w, hw, hb1, hb2⟩
        subst hw
        simp only at hb1 hb2
        omega
    · simp only [if_neg he, List.mem_cons]
      have hs2 : min (start + C) P - O < P := by omega
      have hf2 : P - (min (start + C) P - O) ≤ f := by omega
      constructor
      · intro hp
        by_cases hpe : p ≤ start + C
        · exact ⟨(start + 1, min (start + C) P), Or.inl rfl, by simp; omega⟩
        · obtain ⟨w, hw, hb⟩ :=
            (ih (min (start + C) P - O) hs2 hf2 p).mp ⟨by omega, hp.2⟩
          exact ⟨w, Or.inr hw, hb⟩
      · rintro ⟨w, hw, hb1, hb2⟩
        rcases hw with hw | hw
        · subst hw
          simp only at hb1 hb2
          omega
        · have hr := (ih (min (start + C) P - O) hs2 hf2 p).mpr ⟨w, hw, hb1, hb2⟩
          omega

theorem dropLast_cons_ne {α : Type} (a : α) (l : List α) (h : l ≠ []) :
    (a :: l).dropLast = a :: l.dropLast := by
  cases l with
  | nil => exact absurd rfl h
  | cons b t => rfl

theorem chunkWindows_nonfinal_len (P C O : Nat) (hO : O < C) :
    ∀ fuel start, start < P → P - start ≤ fuel →
      ∀ w ∈ (chunkWindows P C O fuel start).dropLast, w.2 + 1 = w.1 + C := by
  intro fuel
  induction fuel with
  | zero => intro start hs hf; omega
  | succ f ih =>
    intro start hs hf w hw
    unfold chunkWindows at hw
    rw [if_pos hs] at hw
    by_cases he : P ≤ min (start + C) P
    · rw [if_pos he] at hw
      simp at hw
    · rw [if_neg he] at hw
      have hs2 : min (start + C) P - O < P := by omega
      have hf2 : P - (min (start + C) P - O) ≤ f := by omega
      have hfe : 1 ≤ f := by omega
      rw [dropLast_cons_ne _ _
        (chunkWindows_ne_nil P C O f (min (start + C) P - O) hs2 hfe)] at hw
      rcases List.mem_cons.mp hw with hw | hw
      · subst hw; simp; omega
      · exact ih (min (start + C) P - O) hs2 hf2 w hw

theorem chunkWindows_chain (P C O : Nat) (hO : O < C) :
    ∀ fuel start, start < P → P - start ≤ fuel →
      (chunkWindows P C O fuel start).Chain'
        (fun w1 w2 => w2.1 + O = w1.2 + 1) := by
  intro fuel
  induction fuel with
  | zero => intro start hs hf; omega
  | succ f ih =>
    intro start hs hf
    unfold chunkWindows
    rw [if_pos hs]
    by_cases he : P ≤ min (start + C) P
    · rw [if_pos he]
      exact List.chain'_singleton _
    · rw [if_neg he]
      have hs2 : min (start + C) P - O < P := by omega
      have hf2 : P - (min (start + C) P - O) ≤ f := by omega
      have hfe : 1 ≤ f := by omega
      have hrec := ih (min (start + C) P - O) hs2 hf2
      cases hr : chunkWindows P C O f (min (start + C) P - O) with
      | nil =>
        exact absurd hr (chunkWindows_ne_nil P C O f (min (start + C) P - O) hs2 hfe)
      | cons y t =>
        rw [hr] at hrec
        have hhd := chunkWindows_head P C O f (min (start + C) P - O) hs2 hfe
        rw [hr] at hhd
        simp only [List.head?_cons, Option.some.injEq] at hhd
        refine List.chain'_cons.mpr ⟨?_, hrec⟩
        rw [hhd]
        simp only
        omega

theorem chunkWindows_fuel_stable (P C O : Nat) (hO : O < C) :
    ∀ fuel fuel2 start, P - start ≤ fuel → P - start ≤ fuel2 →
      chunkWindows P C O fuel start = chunkWindows P C O fuel2 start := by
  intro fuel
  induction fuel with
  | zero =>
    intro fuel2 start hf hf2
    have hs : ¬ start < P := by omega
    rw [chunkWindows_of_ge P C O 0 start hs, chunkWindows_of_ge P C O fuel2 start hs]
  | succ f ih =>
    intro fuel2 start hf hf2
    by_cases hs : start < P
    · cases fuel2 with
      | zero => omega
      | succ f2 =>
        unfold chunkWindows
        rw [if_pos hs, if_pos hs]
        by_cases he : P ≤ min (start + C) P
        · rw [if_pos he, if_pos he]
        · rw [if_neg he, if_neg he]
          have hf2a : P - (min (start + C) P - O) ≤ f := by omega
          have hf2b : P - (min (start + C) P - O) ≤ f2 := by omega
          rw [ih f2 (min (start + C) P - O) hf2a hf2b]
    · rw [chunkWindows_of_ge P C O _ start hs, chunkWindows_of_ge P C O fuel2 start hs]

/-- C2: for every page count P ≥ 1, window size C and overlap O < C, the
chunk loop terminates (any fuel beyond the supplied `totalPages` budget
yields the same finite window list), the first window starts at page 1,
the union of the windows' page ranges is exactly [1, P], every non-final
window has length exactly C, and each consecutive window starts exactly O
pages before its predecessor's end (so consecutive windows overlap in
exactly O pages). -/
theorem extractChunks_spec (P C O : Nat) (hP : 1 ≤ P) (hO : O < C) :
    (∀ k, chunkWindows P C O (P + k) 0 = extractChunks P C O) ∧
    (∃ w0 tl, extractChunks P C O = w0 :: tl ∧ w0.1 = 1) ∧
    (∀ p, (1 ≤ p ∧ p ≤ P) ↔ ∃ w ∈ extractChunks P C O, w.1 ≤ p ∧ p ≤ w.2) ∧
    (∀ w ∈ (extractChunks P C O).dropLast, w.2 + 1 = w.1 + C) ∧
    (extractChunks P C O).Chain' (fun w1 w2 => w2.1 + O = w1.2 + 1) := by
  have hs : (0 : Nat) < P := hP
  have hf : P - 0 ≤ P := by omega
  simp only [extractChunks]
  refine ⟨?_, ?_, ?_, ?_, ?_⟩
  · intro k
    exact chunkWindows_fuel_stable P C O hO (P + k) P 0 (by omega) hf
  · obtain ⟨w0, tl, hr⟩ : ∃ w0 tl, chunkWindows P C O P 0 = w0 :: tl := by
      cases hr : chunkWindows P C O P 0 with
      | nil => exact absurd hr (chunkWindows_ne_nil P C O P 0 hs (by omega))
      | cons a b => exact ⟨a, b, rfl⟩
    refine ⟨w0, tl, hr, ?_⟩
    have hh := chunkWindows_head P C O P 0 hs (by omega)
    rw [hr] at hh
    simp only [List.head?_cons, Option.some.injEq] at hh
    rw [hh]
  · intro p
    exact chunkWindows_cover P C O hO P 0 hs hf p
  · exact chunkWindows_nonfinal_len P C O hO P 0 hs hf
  · exact chunkWindows_chain P C O hO P 0 hs hf

/-- C2 witness: a 5-page document with window size 3 and overlap 1. -/
theorem extractChunks_spec_witness :
    (1 ≤ 5 ∧ 1 < 3) ∧
    (∀ p, (1 ≤ p ∧ p ≤ 5) ↔ ∃ w ∈ extractChunks 5 3 1, w.1 ≤ p ∧ p ≤ w.2) ∧
    extractChunks 5 3 1 = [(1, 3), (3, 5)] :=
  ⟨⟨by decide, by decide⟩,
   (extractChunks_spec 5 3 1 (by decide) (by decide)).2.2.1,
   by decide⟩

/-! ## Label normalization (`consolidation/normalization.py`) -/

/-- Does `pat` start the character list `s`? -/
def startsWith : List Char → List Char → Bool
  | [], _ => true
  | _ :: _, [] => false
  | p :: ps, c :: cs => p == c && startsWith ps cs

/-- Python substring containment `pat in s` on character lists. -/
def substrB (pat : List Char) : List Char → Bool
  | [] => pat.isEmpty
  | c :: t => startsWith pat (c :: t) || substrB pat t

/-- The configurable pattern map, in registration (insertion) order:
lowercase substring pattern to canonical label. -/
def LABEL_MAP : List (String × String) := [
  ("total revenue", "Total Revenue"),
  ("net revenue", "Total Revenue"),
  ("revenue", "Revenue"),
  ("sales", "Revenue"),
  ("net sales", "Revenue"),
  ("cost of revenue", "Cost of Revenue"),
  ("cost of goods sold", "Cost of Revenue"),
  ("cost of sales", "Cost of Revenue"),
  ("cogs", "Cost of Revenue"),
  ("gross profit", "Gross Profit"),
  ("gross margin", "Gross Profit"),
  ("research and development", "Research & Development"),
  ("r&d", "Research & Development"),
  ("selling, general", "Selling, General & Administrative"),
  ("sg&a", "Selling, General & Administrative"),
  ("selling general and administrative", "Selling, General & Administrative"),
  ("operating expense", "Operating Expenses"),
  ("total operating expense", "Total Operating Expenses"),
  ("operating income", "Operating Income"),
  ("income from operations", "Operating Income"),
  ("interest expense", "Interest Expense"),
  ("interest income", "Interest Income"),
  ("other income", "Other Income/Expense"),
  ("other expense", "Other Income/Expense"),
  ("income before", "Income Before Tax"),
  ("pretax income", "Income Before Tax"),
  ("provision for income tax", "Income Tax Expense"),
  ("income tax expense", "Income Tax Expense"),
  ("income tax", "Income Tax Expense"),
  ("net income", "Net Income"),
  ("net loss", "Net Income"),
  ("earnings per share", "Earnings Per Share"),
  ("basic eps", "Earnings Per Share (Basic)"),
  ("diluted eps", "Earnings Per Share (Diluted)"),
  ("depreciation and amortization", "Depreciation & Amortization"),
  ("depreciation", "Depreciation & Amortization"),
  ("ebitda", "EBITDA"),
  ("cash and cash equivalents", "Cash & Cash Equivalents"),
  ("cash and equivalents", "Cash & Cash Equivalents"),
  ("short-term investments", "Short-term Investments"),
  ("marketable securities", "Short-term Investments"),
  ("accounts receivable", "Accounts Receivable"),
  ("inventories", "Inventory"),
  ("inventory", "Inventory"),
  ("total current assets", "Total Current Assets"),
  ("property, plant", "Property, Plant & Equipment"),
  ("property and equipment", "Property, Plant & Equipment"),
  ("goodwill", "Goodwill"),
  ("intangible assets", "Intangible Assets"),
  ("total assets", "Total Assets"),
  ("accounts payable", "Accounts Payable"),
  ("accrued", "Accrued Liabilities"),
  ("short-term debt", "Short-term Debt"),
  ("current portion of long-term debt", "Short-term Debt"),
  ("total current liabilities", "Total Current Liabilities"),
  ("long-term debt", "Long-term Debt"),
  ("total liabilities", "Total Liabilities"),
  ("common stock", "Common Stock"),
  ("retained earnings", "Retained Earnings"),
  ("accumulated deficit", "Retained Earnings"),
  ("treasury stock", "Treasury Stock"),
  ("total stockholders", "Total Stockholders\x27 Equity"),
  ("total shareholders", "Total Stockholders\x27 Equity"),
  ("total equity", "Total Stockholders\x27 Equity"),
  ("total liabilities and stockholders", "Total Liabilities & Equity"),
  ("total liabilities and shareholders", "Total Liabilities & Equity"),
  ("total liabilities and equity", "Total Liabilities & Equity"),
  ("operating activities", "Cash from Operating Activities"),
  ("cash from operations", "Cash from Operating Activities"),
  ("net cash provided by operating", "Cash from Operating Activities"),
  ("capital expenditure", "Capital Expenditures"),
  ("purchases of property", "Capital Expenditures"),
  ("investing activities", "Cash from Investing Activities"),
  ("net cash used in investing", "Cash from Investing Activities"),
  ("financing activities", "Cash from Financing Activities"),
  ("net cash provided by financing", "Cash from Financing Activities"),
  ("net cash used in financing", "Cash from Financing Activities"),
  ("dividends paid", "Dividends Paid"),
  ("share repurchase", "Share Repurchases"),
  ("stock-based compensation", "Stock-based Compensation"),
  ("net change in cash", "Net Change in Cash"),
  ("net increase", "Net Change in Cash"),
  ("net decrease", "Net Change in Cash"),
  ("beginning cash", "Beginning Cash Balance"),
  ("cash at beginning", "Beginning Cash Balance"),
  ("ending cash", "Ending Cash Balance"),
  ("cash at end", "Ending Cash Balance")]

/-- Pattern length, the measure the scan maximizes. -/
def mLen (p : String × String) : Nat := p.1.length

/-- Python `str.lower()` on a character list. -/
def pyLower (s : List Char) : List Char := s.map Char.toLower

/-- Python `str.strip()` on a character list: drop leading and trailing
whitespace. -/
def pyStrip (s : List Char) : List Char :=
  ((s.dropWhile Char.isWhitespace).reverse.dropWhile Char.isWhitespace).reverse

/-- `raw_label.lower().strip()` as a character list. -/
def lowerTrim (raw : String) : List Char := pyStrip (pyLower raw.toList)

/-- One step of the `normalize_label` scan: state is
(best_match, best_len), replaced when a pattern matches and is strictly
longer than the best so far. -/
def matchStep (lower : List Char) (acc : Option String × Nat)
    (p : String × String) : Option String × Nat :=
  if substrB p.1.toList lower ∧ p.1.length > acc.2 then (some p.2, p.1.length) else acc

/-- `normalize_label`: lowercase and trim, then scan every pattern keeping
the canonical label of the longest matching substring pattern (earliest
registration wins ties); `none` when no pattern matches. -/
def normalize_label (raw_label : String) : Option String :=
  ((LABEL_MAP.foldl (matchStep (lowerTrim raw_label)) (none, 0))).1

theorem normFold_some (lower : List Char) (mp : List (String × String)) :
    ∀ q : String × String,
      mp.foldl (matchStep lower) (some q.2, q.1.length) =
        (some (bestFrom mLen q
            (mp.filter (fun p => substrB p.1.toList lower))).2,
         mLen (bestFrom mLen q
            (mp.filter (fun p => substrB p.1.toList lower)))) := by
  induction mp with
  | nil => intro q; simp [bestFrom, mLen]
  | cons p rest ih =>
    intro q
    simp only [List.foldl_cons]
    by_cases hm : substrB p.1.toList lower = true
    · have hfil : List.filter (fun x => substrB x.1.toList lower) (p :: rest)
          = p :: List.filter (fun x => substrB x.1.toList lower) rest := by
        rw [List.filter_cons, if_pos hm]
      rw [hfil]
      by_cases hgt : p.1.length > q.1.length
      · have hstep : matchStep lower (some q.2, q.1.length) p = (some p.2, p.1.length) := by
          unfold matchStep
          exact if_pos ⟨hm, hgt⟩
        rw [hstep, ih p]
        have hb : bestFrom mLen q (p :: List.filter (fun x => substrB x.1.toList lower) rest)
            = bestFrom mLen p (List.filter (fun x => substrB x.1.toList lower) rest) := by
          simp only [bestFrom, mLen]
          rw [if_pos hgt]
        rw [hb]
      · have hstep : matchStep lower (some q.2, q.1.length) p = (some q.2, q.1.length) := by
          unfold matchStep
          exact if_neg (fun hc => hgt hc.2)
        rw [hstep, ih q]
        have hb : bestFrom mLen q (p :: List.filter (fun x => substrB x.1.toList lower) rest)
            = bestFrom mLen q (List.filter (fun x => substrB x.1.toList lower) rest) := by
          simp only [bestFrom, mLen]
          rw [if_neg hgt]
        rw [hb]
    · have hfil : List.filter (fun x => substrB x.1.toList lower) (p :: rest)
          = List.filter (fun x => substrB x.1.toList lower) rest := by
        rw [List.filter_cons, if_neg hm]
      rw [hfil]
      have hstep : matchStep lower (some q.2, q.1.length) p = (some q.2, q.1.length) := by
        unfold matchStep
        exact if_neg (fun hc => hm hc.1)
      rw [hstep, ih q]

theorem normFold_none (lower : List Char) (mp : List (String × String))
    (hnz : ∀ p ∈ mp, p.1.length ≠ 0) :
    mp.foldl (matchStep lower) (none, 0) =
      match mp.filter (fun p => substrB p.1.toList lower) with
      | [] => (none, 0)
      | q :: rest => (some (bestFrom mLen q rest).2, mLen (bestFrom mLen q rest)) := by
  induction mp with
  | nil => rfl
  | cons p rest ih =>
    simp only [List.foldl_cons]
    by_cases hm : substrB p.1.toList lower = true
    · have hgt : p.1.length > 0 := Nat.pos_of_ne_zero (hnz p (by simp))
      have hfil : List.filter (fun x => substrB x.1.toList lower) (p :: rest)
          = p :: List.filter (fun x => substrB x.1.toList lower) rest := by
        rw [List.filter_cons, if_pos hm]
      have hstep : matchStep lower (none, 0) p = (some p.2, p.1.length) := by
        unfold matchStep
        exact if_pos ⟨hm, hgt⟩
      rw [hfil, hstep]
      exact normFold_some lower rest p
    · have hfil : List.filter (fun x => substrB x.1.toList lower) (p :: rest)
          = List.filter (fun x => substrB x.1.toList lower) rest := by
        rw [List.filter_cons, if_neg hm]
      have hstep : matchStep lower (none, 0) p = (none, 0) := by
        unfold matchStep
        exact if_neg (fun hc => hm hc.1)
      rw [hfil, hstep]
      exact ih (fun x hx => hnz x (by simp [hx]))

/-- The list of registered patterns matching a label after lowercasing
and trimming, in registration order. -/
def matchingPatterns (raw : String) : List (String × String) :=
  LABEL_MAP.filter (fun p => substrB p.1.toList (lowerTrim raw))

theorem normalize_label_char (raw : String) :
    normalize_label raw =
      match matchingPatterns raw with
      | [] => none
      | q :: rest => some (bestFrom mLen q rest).2 := by
  unfold normalize_label matchingPatterns
  rw [normFold_none (lowerTrim raw) LABEL_MAP (by decide)]
  cases LABEL_MAP.filter (fun p => substrB p.1.toList (lowerTrim raw)) with
  | nil => rfl
  | cons q rest => rfl

/-- C5 counterexample: "Cost of revenue" contains "revenue" and does not
contain "total revenue", yet it normalizes to "Cost of Revenue", not
"Revenue" (the longer pattern "cost of revenue" wins). -/
theorem normalize_label_contains_revenue_cex :
    substrB ("revenue".toList) (lowerTrim "Cost of revenue") = true ∧
    substrB ("total revenue".toList) (lowerTrim "Cost of revenue") = false ∧
    normalize_label "Cost of revenue" = some "Cost of Revenue" ∧
    normalize_label "Cost of revenue" ≠ some "Revenue" :=
  ⟨by decide, by decide, by decide, by decide⟩

/-- C5 amended: `normalize_label` lowercases and trims its input and, among
all registered patterns occurring as substrings of the result, selects the
canonical label of the longest matching pattern with ties resolved by
earliest registration order, returning `none` when no pattern matches;
"Total Revenues" normalizes to "Total Revenue"; and a label containing
"revenue" all of whose matching patterns are at most as long as "revenue"
normalizes to "Revenue" (without that restriction the claim fails, e.g. on
"Cost of revenue"). -/
theorem normalize_label_spec :
    (∀ raw : String,
      (normalize_label raw = none ↔ matchingPatterns raw = []) ∧
      (∀ q rest, matchingPatterns raw = q :: rest →
        ∃ b ∈ q :: rest, normalize_label raw = some b.2 ∧
          (∀ x ∈ q :: rest, mLen x ≤ mLen b) ∧
          (∃ l1 l2, q :: rest = l1 ++ b :: l2 ∧ ∀ x ∈ l1, mLen x < mLen b))) ∧
    normalize_label "Total Revenues" = some "Total Revenue" ∧
    (∀ raw : String, substrB ("revenue".toList) (lowerTrim raw) = true →
      (∀ p ∈ LABEL_MAP, substrB p.1.toList (lowerTrim raw) = true →
        p.1.length ≤ 7) →
      normalize_label raw = some "Revenue") := by
  refine ⟨?_, by decide, ?_⟩
  · intro raw
    constructor
    · rw [normalize_label_char]
      cases hm : matchingPatterns raw with
      | nil => simp
      | cons q rest => simp
    · intro q rest hm
      rw [normalize_label_char, hm]
      refine ⟨bestFrom mLen q rest, bestFrom_mem mLen q rest, rfl,
        bestFrom_max mLen q rest, bestFrom_first mLen q rest⟩
  · intro raw hrev hbound
    have hsplit : LABEL_MAP =
        ("total revenue", "Total Revenue") :: ("net revenue", "Total Revenue") ::
          ("revenue", "Revenue") :: LABEL_MAP.drop 3 := by rfl
    have h1 : ¬ substrB ("total revenue".toList) (lowerTrim raw) = true := by
      intro hc
      have hle := hbound ("total revenue", "Total Revenue")
        (by rw [hsplit]; exact List.mem_cons_self _ _) hc
      exact absurd hle (by decide)
    have h2 : ¬ substrB ("net revenue".toList) (lowerTrim raw) = true := by
      intro hc
      have hle := hbound ("net revenue", "Total Revenue")
        (by rw [hsplit]; simp) hc
      exact absurd hle (by decide)
    have hm : matchingPatterns raw = ("revenue", "Revenue") ::
        (LABEL_MAP.drop 3).filter (fun p => substrB p.1.toList (lowerTrim raw)) := by
      unfold matchingPatterns
      conv_lhs => rw [hsplit]
      rw [List.filter_cons, if_neg h1, List.filter_cons, if_neg h2,
        List.filter_cons, if_pos hrev]
    rw [normalize_label_char, hm]
    show some (bestFrom mLen ("revenue", "Revenue")
        ((LABEL_MAP.drop 3).filter (fun p => substrB p.1.toList (lowerTrim raw)))).2
      = some "Revenue"
    have hno : ∀ x ∈ (LABEL_MAP.drop 3).filter
        (fun p => substrB p.1.toList (lowerTrim raw)), mLen x ≤ mLen ("revenue", "Revenue") := by
      intro x hx
      obtain ⟨hx1, hx2⟩ := List.mem_filter.mp hx
      have hxm : x ∈ LABEL_MAP := by
        rw [hsplit]
        exact List.mem_cons_of_mem _ (List.mem_cons_of_mem _ (List.mem_cons_of_mem _ hx1))
      exact hbound x hxm (by simpa using hx2)
    rw [bestFrom_of_no_gt mLen _ _ hno]

/-- C5 amended witness: "Revenues" matches only the pattern "revenue" and
normalizes to "Revenue". -/
theorem normalize_label_spec_witness :
    normalize_label "Revenues" = some "Revenue" :=
  normalize_label_spec.2.2 "Revenues" (by decide) (by decide)

/-! ## Persisted state and the review/edit workflow (`service.py`, `models.py`) -/

/-- A persisted financial statement row. -/
structure FinancialStatement where
  id : Nat
  document_id : Nat
  statement_type : String
  period : String
  period_end_date : Option String
  currency : Option String
  unit : Option String
  source_pages : Option String
  review_status : String
  reviewer_id : Option String
  review_notes : Option String
  locked : Bool
  investment_id : Option Nat
  reporting_date : Option String
  fiscal_period_label : Option String
deriving DecidableEq, Repr

/-- A persisted line-item row. -/
structure LineItem where
  id : Nat
  statement_id : Nat
  category : String
  label : String
  value : Option Int
  is_total : Bool
  indent_level : Nat
  sort_order : Nat
  edited_label : Option String
  edited_value : Option Int
  is_user_modified : Bool
  canonical_label : Option String
deriving DecidableEq, Repr

/-- An append-only audit row for one changed field of one edit call. -/
structure EditLog where
  id : Nat
  line_item_id : Nat
  field : String
  old_value : Option String
  new_value : Option String
  created_at : Nat
deriving DecidableEq, Repr

/-- A parse-job row (only the fields `delete_financials` touches). -/
structure ParseJob where
  id : Nat
  document_id : Nat
  status : String
deriving DecidableEq, Repr

/-- The persisted state the financial-parsing service operates on.
`clock` supplies the strictly increasing `created_at` (and id) values of
newly inserted edit-log rows. -/
structure DB where
  statements : List FinancialStatement
  line_items : List LineItem
  edit_logs : List EditLog
  parse_jobs : List ParseJob
  investments : List Nat
  clock : Nat
deriving DecidableEq, Repr

inductive ServiceError where
  | badRequest : String → ServiceError
  | notFound : String → ServiceError
deriving DecidableEq, Repr

def findStatement (db : DB) (statement_id : Nat) : Option FinancialStatement :=
  db.statements.find? (fun s => decide (s.id = statement_id))

def findLineItem (db : DB) (line_item_id : Nat) : Option LineItem :=
  db.line_items.find? (fun x => decide (x.id = line_item_id))

def updStatement (l : List FinancialStatement) (st : FinancialStatement) :
    List FinancialStatement :=
  l.map (fun x => if x.id = st.id then st else x)

def updLineItem (l : List LineItem) (li : LineItem) : List LineItem :=
  l.map (fun x => if x.id = li.id then li else x)

def VALID_REVIEW_STATUSES : List String := ["pending", "reviewed", "approved"]

/-- `review_statement`: validate the status, fetch the statement, reject if
locked, else overwrite review fields. -/
def review_statement (db : DB) (statement_id : Nat) (review_status : String)
    (reviewer_id review_notes : Option String) :
    Except ServiceError FinancialStatement × DB :=
  if review_status ∉ VALID_REVIEW_STATUSES then
    (Except.error (ServiceError.badRequest "Invalid review_status"), db)
  else
    match findStatement db statement_id with
    | none => (Except.error (ServiceError.notFound "Financial statement not found"), db)
    | some stmt =>
      if stmt.locked then
        (Except.error (ServiceError.badRequest "Statement is locked and cannot be modified"), db)
      else
        let stmt2 := { stmt with review_status := review_status,
                                 reviewer_id := reviewer_id,
                                 review_notes := review_notes }
        (Except.ok stmt2, { db with statements := updStatement db.statements stmt2 })

/-- `lock_statement`: set `locked` and force `review_status` to approved. -/
def lock_statement (db : DB) (statement_id : Nat) :
    Except ServiceError FinancialStatement × DB :=
  match findStatement db statement_id with
  | none => (Except.error (ServiceError.notFound "Financial statement not found"), db)
  | some stmt =>
    let stmt2 := { stmt with locked := true, review_status := "approved" }
    (Except.ok stmt2, { db with statements := updStatement db.statements stmt2 })

/-- Python `str(x)` where `x` is the numeric value or `None`. -/
def strOfOptInt : Option Int → String
  | none => "None"
  | some n => toString n

/-- Python `a or b` on an optional string (`None` and `""` are falsy). -/
def pyOrStr : Option String → String → String
  | some s, b => if s = "" then b else s
  | none, b => b

/-- The effective value: `edited_value if edited_value is not None else value`. -/
def effValue (li : LineItem) : Option Int :=
  match li.edited_value with
  | some v => some v
  | none => li.value

/-- The label half of an edit call: one audit row when the submitted label
differs from the current edited label. -/
def labelEditLogs (t : Nat) (li : LineItem) (edited_label : Option String) :
    List EditLog × LineItem :=
  match edited_label with
  | none => ([], li)
  | some lbl =>
    if some lbl ≠ li.edited_label then
      ([{ id := t, line_item_id := li.id, field := "label",
          old_value := some (pyOrStr li.edited_label li.label),
          new_value := some lbl, created_at := t }],
       { li with edited_label := some lbl })
    else ([], li)

/-- The value half of an edit call: one audit row when the submitted value
differs from the current edited value, capturing the prior effective value
and the new value as text. -/
def valueEditLogs (t : Nat) (li : LineItem) (edited_value : Option Int) :
    List EditLog × LineItem :=
  match edited_value with
  | none => ([], li)
  | some v =>
    if some v ≠ li.edited_value then
      ([{ id := t, line_item_id := li.id, field := "value",
          old_value := some (strOfOptInt (effValue li)),
          new_value := some (toString v), created_at := t }],
       { li with edited_value := some v })
    else ([], li)

/-- `edit_line_item`: fetch the item, reject if its statement is locked,
log one audit row per changed field, update the edited fields, and set
`is_user_modified` when any field was submitted and changed. -/
def edit_line_item (db : DB) (line_item_id : Nat)
    (edited_label : Option String) (edited_value : Option Int) :
    Except ServiceError LineItem × DB :=
  match findLineItem db line_item_id with
  | none => (Except.error (ServiceError.notFound "Line item not found"), db)
  | some li =>
    if (match findStatement db li.statement_id with
        | some st => st.locked
        | none => false) then
      (Except.error (ServiceError.badRequest "Statement is locked and cannot be modified"), db)
    else
      let lab := labelEditLogs db.clock li edited_label
      let val := valueEditLogs (db.clock + lab.1.length) lab.2 edited_value
      let logs := lab.1 ++ val.1
      let li3 := if edited_label ≠ none ∨ edited_value ≠ none then
          { val.2 with is_user_modified := true }
        else val.2
      (Except.ok li3,
       { db with line_items := updLineItem db.line_items li3,
                 edit_logs := db.edit_logs ++ logs,
                 clock := db.clock + logs.length })

/-- `get_edit_history`: the audit rows of a line item, most recent first;
`edit_logs` is stored in insertion order with strictly increasing
`created_at`, so newest-first is the reverse of the stored order. -/
def get_edit_history (db : DB) (line_item_id : Nat) : List EditLog :=
  (db.edit_logs.filter (fun e => decide (e.line_item_id = line_item_id))).reverse

/-- `map_statement_to_investment`: fetch statement and investment, then
overwrite the mapping fields; there is no locked check. -/
def map_statement_to_investment (db : DB) (statement_id investment_id : Nat)
    (reporting_date fiscal_period_label : Option String) :
    Except ServiceError FinancialStatement × DB :=
  match findStatement db statement_id with
  | none => (Except.error (ServiceError.notFound "Financial statement not found"), db)
  | some stmt =>
    if investment_id ∈ db.investments then
      let stmt2 := { stmt with investment_id := some investment_id,
                               reporting_date := reporting_date,
                               fiscal_period_label := fiscal_period_label }
      (Except.ok stmt2, { db with statements := updStatement db.statements stmt2 })
    else (Except.error (ServiceError.notFound "Investment not found"), db)

/-- `delete_financials`: bulk `query.delete()` of the document's statements
and parse jobs.  SQLAlchemy bulk deletes bypass the ORM-level
`cascade="all, delete-orphan"` declared on `FinancialStatement.line_items`,
and the `line_items.statement_id` foreign key has no database-level
`ON DELETE` action (and SQLite does not enforce it by default), so line
items are not deleted. -/
def delete_financials (db : DB) (document_id : Nat) : DB :=
  { db with
    statements := db.statements.filter (fun s => decide (s.document_id ≠ document_id)),
    parse_jobs := db.parse_jobs.filter (fun j => decide (j.document_id ≠ document_id)) }

/-- C6: on a locked statement, a review-status call (with a valid status)
fails with the locked error and leaves the state unchanged, and an edit
call on any of its line items fails with the locked error and leaves the
state unchanged. -/
theorem locked_rejects_review_and_edit
    (db : DB) (st : FinancialStatement)
    (hst : findStatement db st.id = some st) (hlock : st.locked = true)
    (status : String) (hvalid : status ∈ VALID_REVIEW_STATUSES)
    (rid notes : Option String) :
    review_statement db st.id status rid notes =
      (Except.error (ServiceError.badRequest "Statement is locked and cannot be modified"), db) ∧
    (∀ (li : LineItem) (el : Option String) (ev : Option Int),
      findLineItem db li.id = some li → li.statement_id = st.id →
      edit_line_item db li.id el ev =
        (Except.error (ServiceError.badRequest "Statement is locked and cannot be modified"), db)) := by
  constructor
  · unfold review_statement
    rw [if_neg (not_not_intro hvalid), hst]
    simp [hlock]
  · intro li el ev hli hsid
    simp [edit_line_item, hli, hsid, hst, hlock]

/-- A locked statement with one line item, for concrete instances. -/
def exStmtLocked : FinancialStatement :=
  { id := 1, document_id := 1, statement_type := "income_statement",
    period := "Q1 2023", period_end_date := none, currency := none,
    unit := none, source_pages := none, review_status := "approved",
    reviewer_id := none, review_notes := none, locked := true,
    investment_id := none, reporting_date := none, fiscal_period_label := none }

def exItemOfLocked : LineItem :=
  { id := 1, statement_id := 1, category := "revenue", label := "Revenue",
    value := some 100, is_total := false, indent_level := 0, sort_order := 0,
    edited_label := none, edited_value := none, is_user_modified := false,
    canonical_label := none }

def exDbLocked : DB :=
  { statements := [exStmtLocked], line_items := [exItemOfLocked],
    edit_logs := [], parse_jobs := [], investments := [7], clock := 0 }

/-- C6 witness: both calls on the concrete locked statement fail and leave
the state unchanged. -/
theorem locked_rejects_review_and_edit_witness :
    review_statement exDbLocked 1 "pending" none none =
      (Except.error (ServiceError.badRequest "Statement is locked and cannot be modified"), exDbLocked) ∧
    edit_line_item exDbLocked 1 none (some 200) =
      (Except.error (ServiceError.badRequest "Statement is locked and cannot be modified"), exDbLocked) :=
  ⟨(locked_rejects_review_and_edit exDbLocked exStmtLocked (by decide) rfl
      "pending" (by decide) none none).1,
   (locked_rejects_review_and_edit exDbLocked exStmtLocked (by decide) rfl
      "pending" (by decide) none none).2 exItemOfLocked none (some 200)
      (by decide) rfl⟩

/-- The statement with its investment-mapping fields overwritten. -/
def mappedStmt (st : FinancialStatement) (inv : Nat) (rd fp : Option String) :
    FinancialStatement :=
  { st with investment_id := some inv, reporting_date := rd,
            fiscal_period_label := fp }

/-- C10: mapping a locked statement to an existing investment raises no
locked error: it succeeds and overwrites investment_id, reporting_date and
fiscal_period_label; locking does not freeze the mapping fields. -/
theorem map_statement_ignores_lock
    (db : DB) (st : FinancialStatement)
    (hst : findStatement db st.id = some st) (hlock : st.locked = true)
    (inv : Nat) (hinv : inv ∈ db.investments) (rd fp : Option String) :
    map_statement_to_investment db st.id inv rd fp =
      (Except.ok (mappedStmt st inv rd fp),
       { db with statements := updStatement db.statements (mappedStmt st inv rd fp) }) := by
  unfold map_statement_to_investment mappedStmt
  rw [hst]
  simp [hinv]

/-- C10 witness: the concrete locked statement maps successfully. -/
theorem map_statement_ignores_lock_witness :
    map_statement_to_investment exDbLocked 1 7 (some "2023-03-31") (some "Q1 2023") =
      (Except.ok (mappedStmt exStmtLocked 7 (some "2023-03-31") (some "Q1 2023")),
       { exDbLocked with statements := updStatement exDbLocked.statements (mappedStmt exStmtLocked 7 (some "2023-03-31") (some "Q1 2023")) }) :=
  map_statement_ignores_lock exDbLocked exStmtLocked (by decide) rfl 7
    (by decide) (some "2023-03-31") (some "Q1 2023")

theorem find?_updLineItem (l : List LineItem) (li li2 : LineItem)
    (hid : li2.id = li.id)
    (h : l.find? (fun x => decide (x.id = li.id)) = some li) :
    (updLineItem l li2).find? (fun x => decide (x.id = li.id)) = some li2 := by
  induction l with
  | nil => simp [List.find?] at h
  | cons x t ih =>
    simp only [updLineItem, List.map_cons]
    by_cases hx : x.id = li.id
    · rw [if_pos (by rw [hx, hid])]
      simp [List.find?_cons, hid]
    · rw [if_neg (by rw [hid]; exact hx)]
      have ht : t.find? (fun x => decide (x.id = li.id)) = some li := by
        simpa [List.find?_cons, hx] using h
      have hrec := ih ht
      simp only [updLineItem] at hrec
      simpa [List.find?_cons, hx] using hrec

/-- An audit row for a changed value field. -/
def valueLogRow (t liid : Nat) (oldv newv : String) : EditLog :=
  { id := t, line_item_id := liid, field := "value",
    old_value := some oldv, new_value := some newv, created_at := t }

/-- One value-only edit call on an unlocked line item with a changed value:
one audit row is appended capturing the prior effective value and the new
value as text, and the item's edited value is updated. -/
theorem edit_value_only_step
    (db : DB) (li : LineItem) (v : Int)
    (hli : findLineItem db li.id = some li)
    (hnolock : (match findStatement db li.statement_id with
        | some st => st.locked
        | none => false) = false)
    (hneq : some v ≠ li.edited_value) :
    edit_line_item db li.id none (some v) =
      (Except.ok ({ li with edited_value := some v, is_user_modified := true }),
       { db with
         line_items := updLineItem db.line_items ({ li with edited_value := some v, is_user_modified := true }),
         edit_logs := db.edit_logs ++ [valueLogRow db.clock li.id (strOfOptInt (effValue li)) (toString v)],
         clock := db.clock + 1 }) := by
  simp [edit_line_item, hli, hnolock, labelEditLogs, valueEditLogs, valueLogRow, hneq]

/-- C7: for a line item whose value and edited value are both unset and
which has no prior audit rows, editing its value to 100 and then to 150
produces exactly two audit rows, retrievable newest-first, recording the
old/new text pairs (None to 100) and (100 to 150). -/
theorem edit_value_audit_trail
    (db : DB) (li : LineItem)
    (hli : findLineItem db li.id = some li)
    (hval : li.value = none) (hev : li.edited_value = none)
    (hnolog : db.edit_logs.filter (fun e => decide (e.line_item_id = li.id)) = [])
    (hnolock : (match findStatement db li.statement_id with
        | some st => st.locked
        | none => false) = false) :
    (get_edit_history ((edit_line_item ((edit_line_item db li.id none (some 100)).2) li.id none (some 150)).2) li.id).map (fun e => (e.field, e.old_value, e.new_value))
      = [("value", some "100", some "150"), ("value", some "None", some "100")] ∧
    (get_edit_history ((edit_line_item ((edit_line_item db li.id none (some 100)).2) li.id none (some 150)).2) li.id).length = 2 ∧
    (get_edit_history ((edit_line_item ((edit_line_item db li.id none (some 100)).2) li.id none (some 150)).2) li.id).Chain'
      (fun a b => b.created_at < a.created_at) := by
  have h100 : toString (100 : Int) = "100" := by decide
  have h150 : toString (150 : Int) = "150" := by decide
  have h1 := edit_value_only_step db li 100 hli hnolock (by rw [hev]; simp)
  have hli2 : findLineItem (edit_line_item db li.id none (some 100)).2 li.id
      = some ({ li with edited_value := some (100 : Int), is_user_modified := true }) := by
    rw [h1]
    exact find?_updLineItem db.line_items li _ rfl hli
  have hnolock2 : (match findStatement (edit_line_item db li.id none (some 100)).2
        (({ li with edited_value := some (100 : Int), is_user_modified := true } : LineItem).statement_id) with
      | some st => st.locked
      | none => false) = false := by
    rw [h1]
    exact hnolock
  have h2 := edit_value_only_step ((edit_line_item db li.id none (some 100)).2)
    ({ li with edited_value := some (100 : Int), is_user_modified := true }) 150 hli2 hnolock2
    (by simp)
  rw [h2, h1]
  refine ⟨?_, ?_, ?_⟩ <;>
    simp [get_edit_history, List.filter_append, hnolog, valueLogRow, effValue,
      strOfOptInt, hev, hval, h100, h150]

/-- An unlocked statement with one fresh line item (no value, no edits). -/
def exStmt7 : FinancialStatement :=
  { id := 2, document_id := 1, statement_type := "income_statement",
    period := "Q1 2023", period_end_date := none, currency := none,
    unit := none, source_pages := none, review_status := "pending",
    reviewer_id := none, review_notes := none, locked := false,
    investment_id := none, reporting_date := none, fiscal_period_label := none }

def exItem7 : LineItem :=
  { id := 2, statement_id := 2, category := "revenue", label := "Revenue",
    value := none, is_total := false, indent_level := 0, sort_order := 0,
    edited_label := none, edited_value := none, is_user_modified := false,
    canonical_label := none }

def exDb7 : DB :=
  { statements := [exStmt7], line_items := [exItem7], edit_logs := [],
    parse_jobs := [], investments := [], clock := 0 }

/-- C7 witness: the concrete fresh line item edited to 100 then 150. -/
theorem edit_value_audit_trail_witness :
    (get_edit_history ((edit_line_item ((edit_line_item exDb7 exItem7.id none (some 100)).2) exItem7.id none (some 150)).2) exItem7.id).map (fun e => (e.field, e.old_value, e.new_value))
      = [("value", some "100", some "150"), ("value", some "None", some "100")] ∧
    (get_edit_history ((edit_line_item ((edit_line_item exDb7 exItem7.id none (some 100)).2) exItem7.id none (some 150)).2) exItem7.id).length = 2 ∧
    (get_edit_history ((edit_line_item ((edit_line_item exDb7 exItem7.id none (some 100)).2) exItem7.id none (some 150)).2) exItem7.id).Chain'
      (fun a b => b.created_at < a.created_at) :=
  edit_value_audit_trail exDb7 exItem7 (by decide) rfl rfl rfl (by decide)

/-- A document's statement, its line item, and its parse job. -/
def exStmt9 : FinancialStatement :=
  { id := 3, document_id := 7, statement_type := "balance_sheet",
    period := "FY 2023", period_end_date := none, currency := none,
    unit := none, source_pages := none, review_status := "pending",
    reviewer_id := none, review_notes := none, locked := false,
    investment_id := none, reporting_date := none, fiscal_period_label := none }

def exItem9 : LineItem :=
  { id := 3, statement_id := 3, category := "total_assets", label := "Total assets",
    value := some 1000, is_total := true, indent_level := 0, sort_order := 0,
    edited_label := none, edited_value := none, is_user_modified := false,
    canonical_label := none }

def exDb9 : DB :=
  { statements := [exStmt9], line_items := [exItem9], edit_logs := [],
    parse_jobs := [{ id := 1, document_id := 7, status := "completed" }],
    investments := [], clock := 0 }

/-- C9: `delete_financials` removes the document's statements and parse
jobs but leaves the statements' line items in place, because the bulk
`query.delete()` bypasses the ORM-level cascade declared on
`FinancialStatement.line_items` and no database-level cascade exists: an
orphaned line item survives whose owning statement is gone. -/
theorem delete_financials_orphans_line_items :
    exItem9.statement_id = exStmt9.id ∧
    exStmt9.document_id = 7 ∧
    (delete_financials exDb9 7).statements = [] ∧
    (delete_financials exDb9 7).parse_jobs = [] ∧
    (delete_financials exDb9 7).line_items = [exItem9] ∧
    ¬ ∃ st ∈ (delete_financials exDb9 7).statements, st.id = exItem9.statement_id :=
  ⟨rfl, rfl, by decide, by decide, rfl, by decide⟩

/-! ## Period alignment (`align_line_items_across_periods` in
`consolidation/aggregation.py`) -/

/-- The statement fields alignment reads: period labels and line items. -/
structure StmtView where
  period : String
  fiscal_period_label : Option String
  line_items : List LineItem
deriving DecidableEq, Repr

/-- `stmt.fiscal_period_label or stmt.period` (Python truthiness). -/
def periodLabel (s : StmtView) : String := pyOrStr s.fiscal_period_label s.period

/-- Row key `li.canonical_label or li.edited_label or li.label`. -/
def liKey (li : LineItem) : String :=
  pyOrStr li.canonical_label (pyOrStr li.edited_label li.label)

/-- One aligned row: metadata fixed at the key's first occurrence plus the
per-period value dict (insertion-ordered). -/
structure AlignedRow where
  canonical_label : String
  category : String
  is_total : Bool
  indent_level : Nat
  values : List (String × Option Int)
deriving DecidableEq, Repr

structure Aligned where
  periods : List String
  rows : List AlignedRow
deriving DecidableEq, Repr

/-- Append a period label if unseen (`if label not in periods`). -/
def insertPeriod (periods : List String) (label : String) : List String :=
  if label ∈ periods then periods else periods ++ [label]

/-- The fresh row created at a key's first occurrence. -/
def newRow (key p : String) (li : LineItem) : AlignedRow :=
  { canonical_label := key, category := li.category, is_total := li.is_total,
    indent_level := li.indent_level, values := [(p, effValue li)] }

/-- Process one line item of one statement: create the row at the key's
first occurrence, then write the display value under the period label. -/
def addLineItem (rows : List AlignedRow) (p : String) (li : LineItem) :
    List AlignedRow :=
  if rows.any (fun r => decide (r.canonical_label = liKey li)) then
    rows.map (fun r => if r.canonical_label = liKey li then { r with values := updateAssoc r.values p (effValue li) } else r)
  else rows ++ [newRow (liKey li) p li]

/-- `align_line_items_across_periods`: distinct period labels in first-seen
order, and rows built by scanning statements and line items in order. -/
def align_line_items_across_periods (statements : List StmtView) : Aligned :=
  { periods := statements.foldl (fun acc s => insertPeriod acc (periodLabel s)) [],
    rows := statements.foldl (fun rows s => s.line_items.foldl (fun rs li => addLineItem rs (periodLabel s) li) rows) [] }

/-- The traversal order of (period label, line item) pairs. -/
def alignItems (statements : List StmtView) : List (String × LineItem) :=
  statements.flatMap (fun s => s.line_items.map (fun li => (periodLabel s, li)))

def rlookup (rows : List AlignedRow) (k : String) : Option AlignedRow :=
  rows.find? (fun r => decide (r.canonical_label = k))

theorem insertPeriod_foldl (l : List String) :
    ∀ acc, l.foldl insertPeriod acc = acc ++ firstSeenDedupAux acc l := by
  induction l with
  | nil => intro acc; simp [firstSeenDedupAux]
  | cons x t ih =>
    intro acc
    simp only [List.foldl_cons, firstSeenDedupAux, insertPeriod]
    by_cases hx : x ∈ acc
    · rw [if_pos hx, if_pos hx]
      exact ih acc
    · rw [if_neg hx, if_neg hx, ih (acc ++ [x])]
      simp

theorem keysOf_addLineItem (rows : List AlignedRow) (p : String) (li : LineItem) :
    (addLineItem rows p li).map (fun r => r.canonical_label) =
      insertPeriod (rows.map (fun r => r.canonical_label)) (liKey li) := by
  unfold addLineItem insertPeriod
  by_cases hm : liKey li ∈ rows.map (fun r => r.canonical_label)
  · have hany : rows.any (fun r => decide (r.canonical_label = liKey li)) = true := by
      rw [List.any_eq_true]
      obtain ⟨r, hr, hrk⟩ := List.mem_map.mp hm
      exact ⟨r, hr, by simp [hrk]⟩
    rw [if_pos hany, if_pos hm, List.map_map]
    refine List.map_congr_left ?_
    intro r _
    by_cases h : r.canonical_label = liKey li <;> simp [h]
  · have hany : ¬ rows.any (fun r => decide (r.canonical_label = liKey li)) = true := by
      intro hc
      obtain ⟨r, hr, hrk⟩ := List.any_eq_true.mp hc
      simp only [decide_eq_true_eq] at hrk
      exact hm (List.mem_map.mpr ⟨r, hr, hrk⟩)
    rw [if_neg hany, if_neg hm, List.map_append]
    simp [newRow]

theorem keysOf_foldl (items : List (String × LineItem)) :
    ∀ rows : List AlignedRow,
      ((items.foldl (fun rs pli => addLineItem rs pli.1 pli.2) rows).map
          (fun r => r.canonical_label)) =
        (items.map (fun pli => liKey pli.2)).foldl insertPeriod
          (rows.map (fun r => r.canonical_label)) := by
  induction items with
  | nil => intro rows; rfl
  | cons pli t ih =>
    intro rows
    simp only [List.foldl_cons, List.map_cons]
    rw [ih, keysOf_addLineItem]

theorem rlookup_cons_pos (r : AlignedRow) (rows : List AlignedRow) (k : String)
    (h : r.canonical_label = k) : rlookup (r :: rows) k = some r := by
  unfold rlookup
  exact List.find?_cons_of_pos _ (by simp [h])

theorem rlookup_cons_neg (r : AlignedRow) (rows : List AlignedRow) (k : String)
    (h : ¬ r.canonical_label = k) : rlookup (r :: rows) k = rlookup rows k := by
  unfold rlookup
  exact List.find?_cons_of_neg _ (by simp [h])

theorem rlookup_upd (rows : List AlignedRow) (p : String) (li : LineItem) (k : String) :
    rlookup (rows.map (fun r => if r.canonical_label = liKey li then { r with values := updateAssoc r.values p (effValue li) } else r)) k =
      if liKey li = k then
        (rlookup rows k).map (fun r => { r with values := updateAssoc r.values p (effValue li) })
      else rlookup rows k := by
  induction rows with
  | nil => by_cases h : liKey li = k <;> simp [rlookup, h]
  | cons r t ih =>
    simp only [List.map_cons]
    by_cases hrk : r.canonical_label = liKey li
    · rw [if_pos hrk]
      by_cases hk : liKey li = k
      · rw [if_pos hk]
        rw [rlookup_cons_pos ({ r with values := updateAssoc r.values p (effValue li) }) _ _ (hrk.trans hk)]
        rw [rlookup_cons_pos r _ _ (hrk.trans hk)]
        simp
      · rw [if_neg hk]
        have hne : ¬ r.canonical_label = k := by rw [hrk]; exact hk
        rw [rlookup_cons_neg ({ r with values := updateAssoc r.values p (effValue li) }) _ _ hne]
        rw [rlookup_cons_neg r _ _ hne]
        have hih := ih
        rw [if_neg hk] at hih
        exact hih
    · rw [if_neg hrk]
      by_cases hk2 : r.canonical_label = k
      · have hne : ¬ liKey li = k := fun h => hrk (hk2.trans h.symm)
        rw [if_neg hne, rlookup_cons_pos r _ _ hk2, rlookup_cons_pos r _ _ hk2]
      · rw [rlookup_cons_neg r _ _ hk2, rlookup_cons_neg r _ _ hk2]
        exact ih

/-- The effect of one traversal element on the row of key `k`. -/
def stepK (k : String) (acc : Option AlignedRow) (pli : String × LineItem) :
    Option AlignedRow :=
  if liKey pli.2 = k then
    match acc with
    | none => some (newRow (liKey pli.2) pli.1 pli.2)
    | some r => some ({ r with values := updateAssoc r.values pli.1 (effValue pli.2) })
  else acc

theorem rlookup_addLineItem (rows : List AlignedRow) (p : String) (li : LineItem)
    (k : String) :
    rlookup (addLineItem rows p li) k = stepK k (rlookup rows k) (p, li) := by
  unfold addLineItem stepK
  by_cases hany : rows.any (fun r => decide (r.canonical_label = liKey li)) = true
  · rw [if_pos hany, rlookup_upd]
    by_cases hk : liKey li = k
    · rw [if_pos hk, if_pos hk]
      have hsome : (rlookup rows k).isSome := by
        unfold rlookup
        rw [List.find?_isSome]
        obtain ⟨r, hr, hrk⟩ := List.any_eq_true.mp hany
        exact ⟨r, hr, by simp only [decide_eq_true_eq] at hrk ⊢; rw [hrk, hk]⟩
      cases hc : rlookup rows k with
      | none => rw [hc] at hsome; simp at hsome
      | some r => simp
    · rw [if_neg hk, if_neg hk]
  · rw [if_neg hany]
    have hnone : rlookup rows (liKey li) = none := by
      unfold rlookup
      rw [List.find?_eq_none]
      intro x hx hpx
      exact hany (List.any_eq_true.mpr ⟨x, hx, hpx⟩)
    by_cases hk : liKey li = k
    · rw [if_pos hk]
      rw [hk] at hnone
      unfold rlookup
      rw [List.find?_append]
      unfold rlookup at hnone
      rw [hnone]
      have hfind : [newRow (liKey li) p li].find? (fun r => decide (r.canonical_label = k)) = some (newRow (liKey li) p li) :=
        List.find?_cons_of_pos _ (by simp [newRow, hk])
      rw [hfind]
      simp
    · rw [if_neg hk]
      unfold rlookup
      rw [List.find?_append]
      have hfind : [newRow (liKey li) p li].find? (fun r => decide (r.canonical_label = k)) = none := by
        rw [List.find?_eq_none]
        intro x hx
        simp only [List.mem_singleton] at hx
        subst hx
        simp [newRow, hk]
      rw [hfind]
      cases hc : rows.find? (fun r => decide (r.canonical_label = k)) <;> rfl

theorem rlookup_foldl (items : List (String × LineItem)) :
    ∀ (rows : List AlignedRow) (k : String),
      rlookup (items.foldl (fun rs pli => addLineItem rs pli.1 pli.2) rows) k =
        items.foldl (stepK k) (rlookup rows k) := by
  induction items with
  | nil => intro rows k; rfl
  | cons pli t ih =>
    intro rows k
    simp only [List.foldl_cons]
    rw [ih, rlookup_addLineItem]

/-- The per-period value writes of a matching traversal segment. -/
def valWrites (l : List (String × LineItem)) (a : List (String × Option Int)) :
    List (String × Option Int) :=
  l.foldl (fun a pli => updateAssoc a pli.1 (effValue pli.2)) a

theorem valWrites_cons (w : String × LineItem) (t : List (String × LineItem))
    (a : List (String × Option Int)) :
    valWrites (w :: t) a = valWrites t (updateAssoc a w.1 (effValue w.2)) := rfl

theorem stepK_fold_some (k : String) (items : List (String × LineItem)) :
    ∀ r : AlignedRow,
      items.foldl (stepK k) (some r) =
        some ({ r with values := valWrites (items.filter (fun pli => decide (liKey pli.2 = k))) r.values }) := by
  induction items with
  | nil => intro r; simp [valWrites]
  | cons pli t ih =>
    intro r
    simp only [List.foldl_cons, List.filter_cons]
    by_cases hk : liKey pli.2 = k
    · have h1 : stepK k (some r) pli =
          some ({ r with values := updateAssoc r.values pli.1 (effValue pli.2) }) := by
        simp [stepK, hk]
      rw [h1, ih]
      simp [hk, valWrites_cons]
    · have h1 : stepK k (some r) pli = some r := by simp [stepK, hk]
      rw [h1, ih]
      simp [hk]

theorem stepK_fold_none (k : String) (items : List (String × LineItem)) :
    items.foldl (stepK k) none =
      match items.filter (fun pli => decide (liKey pli.2 = k)) with
      | [] => none
      | first :: rest => some ({ newRow (liKey first.2) first.1 first.2 with values := valWrites rest [(first.1, effValue first.2)] }) := by
  induction items with
  | nil => rfl
  | cons pli t ih =>
    simp only [List.foldl_cons]
    by_cases hk : liKey pli.2 = k
    · have hfil : List.filter (fun x => decide (liKey x.2 = k)) (pli :: t)
          = pli :: List.filter (fun x => decide (liKey x.2 = k)) t := by
        rw [List.filter_cons, if_pos (by simp [hk])]
      have h1 : stepK k none pli = some (newRow (liKey pli.2) pli.1 pli.2) := by
        simp [stepK, hk]
      rw [h1, stepK_fold_some k t (newRow (liKey pli.2) pli.1 pli.2), hfil]
      rfl
    · have hfil : List.filter (fun x => decide (liKey x.2 = k)) (pli :: t)
          = List.filter (fun x => decide (liKey x.2 = k)) t := by
        rw [List.filter_cons, if_neg (by simp [hk])]
      have h1 : stepK k none pli = none := by simp [stepK, hk]
      rw [h1, ih, hfil]

theorem lookupAssoc_valWrites (writes : List (String × LineItem)) :
    ∀ (a : List (String × Option Int)) (p : String),
      lookupAssoc (valWrites writes a) p =
        match (writes.filter (fun pli => decide (pli.1 = p))).getLast? with
        | some pli => some (effValue pli.2)
        | none => lookupAssoc a p := by
  induction writes with
  | nil => intro a p; rfl
  | cons w t ih =>
    intro a p
    rw [valWrites_cons, ih]
    simp only [List.filter_cons]
    by_cases hw : w.1 = p
    · rw [if_pos (by simp [hw])]
      cases hrest : t.filter (fun pli => decide (pli.1 = p)) with
      | nil =>
        simp [lookupAssoc_updateAssoc, hw]
      | cons b l => rfl
    · rw [if_neg (by simp [hw])]
      cases hrest : t.filter (fun pli => decide (pli.1 = p)) with
      | nil =>
        simp [lookupAssoc_updateAssoc, hw]
      | cons b l => rfl

theorem foldl_flatMap_eq (statements : List StmtView) :
    ∀ rows0 : List AlignedRow,
      statements.foldl (fun rows s => s.line_items.foldl (fun rs li => addLineItem rs (periodLabel s) li) rows) rows0 =
      (alignItems statements).foldl (fun rs pli => addLineItem rs pli.1 pli.2) rows0 := by
  induction statements with
  | nil => intro rows0; rfl
  | cons s t ih =>
    intro rows0
    simp only [List.foldl_cons, alignItems, List.flatMap_cons, List.foldl_append,
      List.foldl_map]
    exact ih _

/-- C8: alignment builds the period columns as the distinct period labels
in first-seen order (preferring fiscal_period_label over period) and the
rows keyed by the fallback chain canonical_label, edited_label, label in
first-occurrence order; the first occurrence of a key fixes the row's
category/is_total/indent_level; a row has an entry under a period label
exactly when some traversed statement with that label contains the key (a
key absent from a statement writes no entry for its period), and a present
entry holds the display value (edited_value if present, else value) of the
last such occurrence. -/
theorem align_spec (statements : List StmtView) :
    (align_line_items_across_periods statements).periods
      = firstSeenDedup (statements.map periodLabel) ∧
    ((align_line_items_across_periods statements).rows.map (fun r => r.canonical_label))
      = firstSeenDedup ((alignItems statements).map (fun pli => liKey pli.2)) ∧
    (∀ k, rlookup (align_line_items_across_periods statements).rows k = none ↔
      (alignItems statements).filter (fun pli => decide (liKey pli.2 = k)) = []) ∧
    (∀ k r, rlookup (align_line_items_across_periods statements).rows k = some r →
      ∃ first rest,
        (alignItems statements).filter (fun pli => decide (liKey pli.2 = k)) = first :: rest ∧
        r.canonical_label = liKey first.2 ∧
        r.category = first.2.category ∧
        r.is_total = first.2.is_total ∧
        r.indent_level = first.2.indent_level ∧
        (∀ p, lookupAssoc r.values p =
          match ((first :: rest).filter (fun pli => decide (pli.1 = p))).getLast? with
          | some pli => some (effValue pli.2)
          | none => none)) := by
  have hrows : (align_line_items_across_periods statements).rows =
      (alignItems statements).foldl (fun rs pli => addLineItem rs pli.1 pli.2) [] := by
    unfold align_line_items_across_periods
    exact foldl_flatMap_eq statements []
  refine ⟨?_, ?_, ?_, ?_⟩
  · unfold align_line_items_across_periods
    rw [← List.foldl_map periodLabel insertPeriod statements []]
    rw [insertPeriod_foldl]
    rfl
  · rw [hrows]
    have h1 := keysOf_foldl (alignItems statements) []
    simp only [List.map_nil] at h1
    rw [h1, insertPeriod_foldl]
    rfl
  · intro k
    rw [hrows, rlookup_foldl]
    have h0 : rlookup [] k = none := rfl
    rw [h0, stepK_fold_none]
    cases hf : (alignItems statements).filter (fun pli => decide (liKey pli.2 = k)) with
    | nil => simp
    | cons first rest => simp
  · intro k r hr
    rw [hrows, rlookup_foldl] at hr
    have h0 : rlookup [] k = none := rfl
    rw [h0, stepK_fold_none] at hr
    cases hf : (alignItems statements).filter (fun pli => decide (liKey pli.2 = k)) with
    | nil => rw [hf] at hr; simp at hr
    | cons first rest =>
      rw [hf] at hr
      simp only [Option.some.injEq] at hr
      refine ⟨first, rest, rfl, ?_, ?_, ?_, ?_, ?_⟩
      · rw [← hr]; rfl
      · rw [← hr]; rfl
      · rw [← hr]; rfl
      · rw [← hr]; rfl
      · intro p
        rw [← hr]
        show lookupAssoc (valWrites rest [(first.1, effValue first.2)]) p = _
        rw [lookupAssoc_valWrites]
        by_cases hfp : first.1 = p
        · rw [List.filter_cons, if_pos (by simp [hfp])]
          cases hfr : rest.filter (fun pli => decide (pli.1 = p)) with
          | nil => simp [lookupAssoc, hfp]
          | cons b l => rfl
        · rw [List.filter_cons, if_neg (by simp [hfp])]
          cases hfr : rest.filter (fun pli => decide (pli.1 = p)) with
          | nil => simp [lookupAssoc, hfp]
          | cons b l => rfl

/-- A raw line item with only a label and a value, as alignment sees it. -/
def mkItem8 (i : Nat) (lbl : String) (v : Int) : LineItem :=
  { id := i, statement_id := 0, category := "other", label := lbl,
    value := some v, is_total := false, indent_level := 0, sort_order := 0,
    edited_label := none, edited_value := none, is_user_modified := false,
    canonical_label := none }

/-- Statement A: period Q1 2023, two line items. -/
def exA8 : StmtView :=
  { period := "Q1 2023", fiscal_period_label := none,
    line_items := [mkItem8 10 "Revenue" 100, mkItem8 11 "Net income" 50] }

/-- Statement B: period Q2 2023, three line items, one label not in A. -/
def exB8 : StmtView :=
  { period := "Q2 2023", fiscal_period_label := none,
    line_items := [mkItem8 20 "Revenue" 120, mkItem8 21 "Net income" 60,
                   mkItem8 22 "EBITDA" 30] }

/-- The row built for the B-only label. -/
def ebitdaRow : AlignedRow :=
  { canonical_label := "EBITDA", category := "other", is_total := false,
    indent_level := 0, values := [("Q2 2023", some 30)] }

/-- C8 witness: statements A and B align to periods [Q1 2023, Q2 2023] and
three rows, and the B-only row has no entry under Q1 2023 (key absent, not
a null value). -/
theorem align_spec_witness :
    (align_line_items_across_periods [exA8, exB8]).periods = ["Q1 2023", "Q2 2023"] ∧
    (align_line_items_across_periods [exA8, exB8]).rows.map (fun r => r.canonical_label)
      = ["Revenue", "Net income", "EBITDA"] ∧
    rlookup (align_line_items_across_periods [exA8, exB8]).rows "EBITDA" = some ebitdaRow ∧
    lookupAssoc ebitdaRow.values "Q1 2023" = none ∧
    lookupAssoc ebitdaRow.values "Q2 2023" = some (some 30) ∧
    (∃ first rest,
      (alignItems [exA8, exB8]).filter (fun pli => decide (liKey pli.2 = "EBITDA"))
        = first :: rest ∧
      ebitdaRow.canonical_label = liKey first.2 ∧
      ebitdaRow.category = first.2.category ∧
      ebitdaRow.is_total = first.2.is_total ∧
      ebitdaRow.indent_level = first.2.indent_level ∧
      (∀ p, lookupAssoc ebitdaRow.values p =
        match ((first :: rest).filter (fun pli => decide (pli.1 = p))).getLast? with
        | some pli => some (effValue pli.2)
        | none => none)) :=
  ⟨(align_spec [exA8, exB8]).1.trans (by decide),
   (align_spec [exA8, exB8]).2.1.trans (by decide),
   by decide, by decide, by decide,
   (align_spec [exA8, exB8]).2.2.2 "EBITDA" ebitdaRow (by decide)⟩
